import Mathlib

/-!
Shallow embedding of the pydiode UDP data-diode transport
(src/pydiode/common.py, src/pydiode/send.py, src/pydiode/receive.py).

Bytes are modelled as natural numbers below 256, byte strings as `List Nat`.
Fallible Python code (struct.error, KeyError, ZeroDivisionError) is modelled
with `Except PyError`.
-/

/-- Python exceptions raised by the modelled code paths. -/
inductive PyError
  /-- struct.error: wrong number of values for the format, or a value out of
  range, or a buffer whose length differs from the format size. -/
  | structError
  /-- KeyError: dict lookup with a key the dict does not hold. -/
  | keyError
  /-- ZeroDivisionError: `p % 0`. -/
  | zeroDivisionError
deriving DecidableEq, Repr

/-! ## common.py -/

/-- common.py line 15: `UDP_MAX_BYTES = 1472 if sys.platform == "darwin" else 9216`. -/
def UDP_MAX_BYTES (darwin : Bool) : Nat := if darwin then 1472 else 9216

/-- common.py line 24: `PACKET_HEADER = struct.Struct("<cHH")`. The format
"<cHH" has three fields: one char (1 byte) and two little-endian unsigned
shorts (2 bytes each), so `PACKET_HEADER.size == 5`. -/
def PACKET_HEADER_size : Nat := 5

/-- common.py line 27: `MAX_PAYLOAD = UDP_MAX_BYTES - PACKET_HEADER.size`. -/
def MAX_PAYLOAD (darwin : Bool) : Nat := UDP_MAX_BYTES darwin - PACKET_HEADER_size

/-- The two bytes of an unsigned short in little-endian order. -/
def u16le (n : Nat) : List Nat := [n % 256, n / 256 % 256]

/-- `PACKET_HEADER.pack`: Python's `struct.Struct("<cHH").pack`. The
argument tuple is modelled as a list; struct.error unless exactly three
values are supplied (one per format field), the char is a single byte and
each unsigned short is in range. -/
def PACKET_HEADER_pack (args : List Nat) : Except PyError (List Nat) :=
  match args with
  | [c, n, s] =>
      if c < 256 ∧ n < 65536 ∧ s < 65536 then
        .ok ([c] ++ u16le n ++ u16le s)
      else .error .structError
  | _ => .error .structError

/-- `PACKET_HEADER.unpack`: struct.error unless the buffer is exactly 5
bytes; otherwise returns (color, n_packets, seq) with the shorts read
little-endian. -/
def PACKET_HEADER_unpack (b : List Nat) : Except PyError (Nat × Nat × Nat) :=
  match b with
  | [c, n0, n1, s0, s1] => .ok (c, n0 + 256 * n1, s0 + 256 * s1)
  | _ => .error .structError

/-- Color byte R (red data chunk). -/
def colorR : Nat := 0x52

/-- Color byte B (blue data chunk). -/
def colorB : Nat := 0x42

/-- Color byte K (blacK, the EOF chunk). -/
def colorK : Nat := 0x4B

/-- Color byte W (white idle filler). -/
def colorW : Nat := 0x57

/-! ## send.py: packet generation -/

/-- send.py line 14. -/
def MIN_WARMUP_CHUNKS : Nat := 5

/-- send.py line 17. -/
def PACKET_BURST : Nat := 10

/-- send.py line 20. -/
def MIN_EOF_CHUNKS : Nat := 2

/-- send.py line 33: `Chunk.n_packets = math.ceil(len(data) / MAX_PAYLOAD)`. -/
def chunkNPackets (darwin : Bool) (data : List Nat) : Nat :=
  (data.length + MAX_PAYLOAD darwin - 1) / MAX_PAYLOAD darwin

/-- One iteration of `Chunk.__iter__` (send.py lines 36-44) at packet index
`p`: `i = p % n_packets` (ZeroDivisionError when n_packets = 0), the payload
slice `data[i*MAX_PAYLOAD:(i+1)*MAX_PAYLOAD]`, zero padding to MAX_PAYLOAD,
and the header `PACKET_HEADER.pack(color, n_packets, i, len(payload))` —
note the pack call supplies four values. -/
def chunkPacket (darwin : Bool) (data : List Nat) (color : Nat) (p : Nat) :
    Except PyError (List Nat) :=
  let n := chunkNPackets darwin data
  if n = 0 then .error .zeroDivisionError
  else
    let i := p % n
    let payload := (data.drop (i * MAX_PAYLOAD darwin)).take (MAX_PAYLOAD darwin)
    let padding := List.replicate (MAX_PAYLOAD darwin - payload.length) 0
    match PACKET_HEADER_pack [color, n, i, payload.length] with
    | .ok header => .ok (header ++ payload ++ padding)
    | .error e => .error e

/-- `Chunk.__iter__` in full: the datagrams for indices `0 ≤ p <
chunk_max_packets`, stopping at the first exception. -/
def chunkIter (darwin : Bool) (data : List Nat) (color : Nat)
    (chunkMaxPackets : Nat) : Except PyError (List (List Nat)) :=
  (List.range chunkMaxPackets).mapM (chunkPacket darwin data color)

/-- The bytes of "Hello\n", the tiny-pipe scenario input. -/
def helloBytes : List Nat := [72, 101, 108, 108, 111, 10]

/-! ## send.py: append_to_chunks -/

/-- Python `b[:k]` for an `Int` index: a negative stop counts from the end. -/
def pySliceTo (b : List Nat) (k : Int) : List Nat :=
  if 0 ≤ k then b.take k.toNat else b.take (b.length - (-k).toNat)

/-- Python `b[k:]` for an `Int` index: a negative start counts from the end. -/
def pySliceFrom (b : List Nat) (k : Int) : List Nat :=
  if 0 ≤ k then b.drop k.toNat else b.drop (b.length - (-k).toNat)

/-- Python `chunks[-1]` (callers guarantee the list is non-empty). -/
def pyLast (chunks : List (List Nat)) : List Nat := chunks.getLast?.getD []

/-- `append_to_chunks` (send.py lines 83-109). The bytes/bytearray
distinction is mutability only and does not affect contents. -/
def append_to_chunks (chunks : List (List Nat)) (data : List Nat)
    (chunk_max_data_bytes : Nat) : List (List Nat) :=
  if chunks = [] ∨ (pyLast chunks).length = chunk_max_data_bytes then
    chunks ++ [data]
  else
    let remaining_space : Int := (chunk_max_data_bytes : Int) - (pyLast chunks).length
    let chunks1 := chunks.dropLast ++ [pyLast chunks ++ pySliceTo data remaining_space]
    if remaining_space < (data.length : Int) then
      chunks1 ++ [pySliceFrom data remaining_space]
    else chunks1

/-- Folding `append_to_chunks` over a sequence of reads, starting from the
empty chunk list (as read_data does, send.py lines 112-132). -/
def chunksOf (cap : Nat) (datas : List (List Nat)) : List (List Nat) :=
  datas.foldl (fun cs d => append_to_chunks cs d cap) []

/-! ## send.py: the send_data loop (lines 226-318)

The loop body depends on what the concurrent reader has made visible in
`chunks` at each iteration: a data chunk popped from the front, the `None`
sentinel popped (EOF), or an empty list. A run of the loop is modelled by
the finite list of these observations; the loop body is otherwise
deterministic. Each `_send_chunk` call is recorded as one `Emission`
carrying the arguments the source passes (chunk bytes, color, redundancy),
tagged with the branch that issued it. -/

/-- What `send_data` observes in `chunks` at one loop iteration. -/
inductive SendEvent
  /-- `chunks.pop(0)` returned a chunk of data (lines 267-268, 284). -/
  | chunk (data : List Nat)
  /-- `chunks.pop(0)` returned `None`, the EOF sentinel (line 271). -/
  | sentinel
  /-- `len(chunks) == 0` this iteration (lines 298, 309). -/
  | empty
deriving DecidableEq, Repr

/-- One `_send_chunk` call issued by `send_data`, tagged by branch. -/
inductive Emission
  /-- Lines 286-293: a freshly popped data chunk. -/
  | fresh (data : List Nat) (color redundancy : Nat)
  /-- Lines 300-307: the previous chunk re-sent while waiting for data. -/
  | resendPrev (data : List Nat) (color redundancy : Nat)
  /-- Lines 311-318: a white filler chunk, `bytes(1)`, while waiting for
  the first data. -/
  | whiteFill (data : List Nat) (color redundancy : Nat)
  /-- Lines 274-281: the EOF chunk. Its payload is the SHA-256 digest of
  the concatenated data sent so far (the digest bytes are not modelled;
  no claim depends on them). -/
  | eofDigest (color redundancy : Nat)
deriving DecidableEq, Repr

/-- The mutable locals of `send_data` across iterations: `color` (line
242), `warmup` (line 259) and `prev_chunk` (line 263). -/
structure SendState where
  color : Nat
  warmup : Bool
  prev : Option (List Nat)
deriving DecidableEq, Repr

/-- The color flip `b"B" if color == b"R" else b"R"` (lines 296 and 303). -/
def flipColor (c : Nat) : Nat := if c = colorR then colorB else colorR

/-- One iteration of the `send_data` loop body. -/
def sendStep (redundancy : Nat) (st : SendState) : SendEvent → SendState × Emission
  | .chunk d =>
      ({ color := flipColor st.color, warmup := false, prev := some d },
       .fresh d st.color
         (if st.warmup then MIN_WARMUP_CHUNKS + redundancy - 1 else redundancy))
  | .sentinel => (st, .eofDigest colorK (max MIN_EOF_CHUNKS redundancy))
  | .empty =>
      match st.prev with
      | some d => (st, .resendPrev d (flipColor st.color) 1)
      | none => (st, .whiteFill [0] colorW 1)

/-- Running the `send_data` loop over a finite observation list: the loop
breaks after the sentinel (line 282); an event list end is simply a finite
prefix of the infinite loop. -/
def sendDataRun (redundancy : Nat) (st : SendState) : List SendEvent → List Emission
  | [] => []
  | ev :: evs =>
      match sendStep redundancy st ev with
      | (st1, e) =>
          match ev with
          | .sentinel => [e]
          | _ => e :: sendDataRun redundancy st1 evs

/-- `send_data`'s initial state: `color = b"R"`, `warmup = True`,
`prev_chunk = None`. -/
def sendInitState : SendState := { color := colorR, warmup := true, prev := none }

/-- The colors of the fresh data-chunk emissions, in order. -/
def freshColors (es : List Emission) : List Nat :=
  es.filterMap fun e =>
    match e with
    | .fresh _ c _ => some c
    | _ => none

/-- The redundancies of the fresh data-chunk emissions, in order. -/
def freshReds (es : List Emission) : List Nat :=
  es.filterMap fun e =>
    match e with
    | .fresh _ _ r => some r
    | _ => none

/-- Every resend re-emits the chunk and color of the most recent fresh
emission before it; the accumulator carries that (chunk, color) pair. -/
def resendsMatchLastFresh : Option (List Nat × Nat) → List Emission → Prop
  | _, [] => True
  | _, .fresh d c _ :: es => resendsMatchLastFresh (some (d, c)) es
  | lf, .resendPrev d c _ :: es => some (d, c) = lf ∧ resendsMatchLastFresh lf es
  | lf, .whiteFill _ _ _ :: es => resendsMatchLastFresh lf es
  | lf, .eofDigest _ _ :: es => resendsMatchLastFresh lf es

/-! ## receive.py -/

/-- A Python dict from seq to payload, as an insertion-ordered association
list with distinct keys (`self.packets[color]`). -/
abbrev PyDict := List (Nat × List Nat)

/-- Python `k in d`. -/
def dictMem (d : PyDict) (k : Nat) : Bool := d.any fun kv => kv.1 = k

/-- Python `d[k] = v`: updates the entry in place when the key is present,
appends it otherwise (dicts preserve insertion order). -/
def dictInsert (d : PyDict) (k : Nat) (v : List Nat) : PyDict :=
  if dictMem d k then d.map fun kv => if kv.1 = k then (k, v) else kv
  else d ++ [(k, v)]

/-- Python `d[k]` as an option. -/
def dictGet? (d : PyDict) (k : Nat) : Option (List Nat) :=
  (d.find? fun kv => kv.1 = k).map fun kv => kv.2

/-- The state of `DiodeReceiveProtocol` (receive.py lines 99-107): the
`completed` dict with keys `b"R"`, `b"B"` and the `packets` dict of dicts
with the same keys. -/
structure RState where
  completedR : Bool
  completedB : Bool
  packetsR : PyDict
  packetsB : PyDict
deriving DecidableEq, Repr

/-- The protocol's initial state: nothing completed, no packets. -/
def rInit : RState :=
  { completedR := false, completedB := false, packetsR := [], packetsB := [] }

/-- `self.completed[color]`: KeyError for any color other than R and B. -/
def completedGet (st : RState) (c : Nat) : Except PyError Bool :=
  if c = colorR then .ok st.completedR
  else if c = colorB then .ok st.completedB
  else .error .keyError

/-- `self.packets[color]`, for `color ∈ {R, B}` (the only callers). -/
def packetsGet (st : RState) (c : Nat) : PyDict :=
  if c = colorR then st.packetsR else st.packetsB

/-- Replace `self.packets[color]`, for `color ∈ {R, B}`. -/
def setPackets (st : RState) (c : Nat) (d : PyDict) : RState :=
  if c = colorR then { st with packetsR := d } else { st with packetsB := d }

/-- Set `self.completed[color]`, for `color ∈ {R, B}`. -/
def setCompleted (st : RState) (c : Nat) (b : Bool) : RState :=
  if c = colorR then { st with completedR := b } else { st with completedB := b }

/-- The emission loop `for seq in range(n_packets): queue.put_nowait(
self.packets[color][seq])` (lines 133-134): KeyError when a seq is absent. -/
def emitChunk (d : PyDict) (n : Nat) : Except PyError (List (List Nat)) :=
  (List.range n).mapM fun s =>
    match dictGet? d s with
    | some v => .ok v
    | none => .error .keyError

/-- `DiodeReceiveProtocol.datagram_received` (receive.py lines 109-140) as
a function of the protocol state and the raw datagram bytes, returning the
new state and the items put on `self.queue` in order (`none` is the `None`
terminator, `some` a payload). `dump_queue` is `None` in this model and
`on_con_lost.set_result` only signals shutdown, so neither appears. -/
def datagramReceived (st : RState) (data : List Nat) :
    Except PyError (RState × List (Option (List Nat))) := do
  let (color, n_packets, seq) ← PACKET_HEADER_unpack (data.take PACKET_HEADER_size)
  if color = colorK then
    return (st, [none, some (data.drop PACKET_HEADER_size)])
  else
    let comp ← completedGet st color
    if comp then
      return (st, [])
    else
      let pk := dictInsert (packetsGet st color) seq (data.drop PACKET_HEADER_size)
      if pk.length = n_packets then
        let outs ← emitChunk pk n_packets
        let st1 := setCompleted (setPackets st color []) color true
        let st2 := setCompleted st1 (flipColor color) false
        return (st2, outs.map some)
      else
        return (setPackets st color pk, [])

/-- Processing a list of delivered datagrams in order, concatenating the
queue outputs. -/
def receiveRun (st : RState) : List (List Nat) →
    Except PyError (RState × List (Option (List Nat)))
  | [] => .ok (st, [])
  | d :: ds => do
      let (st1, out1) ← datagramReceived st d
      let (st2, out2) ← receiveRun st1 ds
      return (st2, out1 ++ out2)

/-- A well-formed wire datagram as the receiver parses it: the 5-byte
header (color, n_packets LE, seq LE) followed by the payload bytes. -/
def mkDatagram (c n s : Nat) (payload : List Nat) : List Nat :=
  [c] ++ u16le n ++ u16le s ++ payload

/-! ## Claim theorems: the packet format (C1, C2, C3, C6) -/

/-- Helper: the receiver's payload extraction `data[PACKET_HEADER.size:]`
applied to a zero-padded datagram returns the whole payload area, padding
included. -/
theorem drop_mkDatagram (c n s : Nat) (pl : List Nat) :
    (mkDatagram c n s pl).drop PACKET_HEADER_size = pl := by
  simp [mkDatagram, u16le, PACKET_HEADER_size]

/-- C1: the round-trip property fails because the sender cannot build a
single datagram: `Chunk.__iter__` packs four values (color, n_packets, seq,
payload_len) into `PACKET_HEADER = struct.Struct("<cHH")`, a three-field
format, so `struct.error` is raised on the very first packet of the first
chunk of the stream "Hello\n" (defaults: chunk_max_packets = 100), on both
platforms. No datagram is ever sent, so the receiver cannot write the
stream or exit 0. -/
theorem c1_roundTrip_sender_crashes :
    chunkIter false helloBytes colorR 100 = .error .structError ∧
    chunkIter true helloBytes colorR 100 = .error .structError ∧
    chunkPacket false helloBytes colorR 0 = .error .structError :=
  ⟨rfl, rfl, rfl⟩

/-- C2: the header the code defines is `struct.Struct("<cHH")` — 5 bytes,
fields color, n_packets, seq, and no payload_len — so `MAX_PAYLOAD =
UDP_MAX_BYTES - 5`, not `UDP_MAX_BYTES - 7`; the sender's four-value pack
call (which matches the claimed 7-byte layout) raises struct.error against
it. A three-value call yields the 5-byte header. -/
theorem c2_header_is_five_bytes :
    PACKET_HEADER_size = 5 ∧
    MAX_PAYLOAD false = UDP_MAX_BYTES false - 5 ∧
    MAX_PAYLOAD true = UDP_MAX_BYTES true - 5 ∧
    MAX_PAYLOAD false ≠ UDP_MAX_BYTES false - 7 ∧
    MAX_PAYLOAD true ≠ UDP_MAX_BYTES true - 7 ∧
    PACKET_HEADER_pack [colorR, 1, 0, 6] = .error .structError ∧
    PACKET_HEADER_pack [colorR, 1, 0] = .ok [colorR, 1, 0, 0, 0] :=
  ⟨rfl, rfl, rfl, by decide, by decide, rfl, rfl⟩

/-- C3: encode∘decode cannot be the identity. Encoding as `Chunk.__iter__`
does raises struct.error at (color = R, n = 1, s = 0, payload "Hello\n"),
and even a datagram hand-assembled with the 5-byte header that the receiver
does parse decodes to the full padded payload area, not to the original
ℓ = 3 payload bytes, because the header has no payload_len field for the
receiver to cut with. -/
theorem c3_header_roundTrip_fails :
    chunkPacket false helloBytes colorR 0 = .error .structError ∧
    PACKET_HEADER_unpack
        ((mkDatagram colorR 1 0 ([1, 2, 3] ++ List.replicate (MAX_PAYLOAD false - 3) 0)).take
          PACKET_HEADER_size) = .ok (colorR, 1, 0) ∧
    (mkDatagram colorR 1 0 ([1, 2, 3] ++ List.replicate (MAX_PAYLOAD false - 3) 0)).drop
        PACKET_HEADER_size ≠ [1, 2, 3] := by
  refine ⟨rfl, rfl, fun h => ?_⟩
  have hlen := congrArg List.length h
  rw [drop_mkDatagram] at hlen
  simp only [List.length_append, List.length_replicate, List.length_cons,
    List.length_nil] at hlen
  have hmp : MAX_PAYLOAD false = 9211 := rfl
  omega

/-- C6: a white datagram is not silently dropped: `datagram_received`
evaluates `self.completed[b"W"]`, and the `completed` dict has only the
keys R and B, so a KeyError escapes. (The raise happens before any state
mutation or queue put, so nothing is pushed and the stored state is
untouched, but the claim's "drops the datagram" does not hold: the
exception propagates to the event loop.) -/
theorem c6_white_packet_raises_keyError :
    datagramReceived rInit (mkDatagram colorW 1 0 [0]) = .error .keyError ∧
    datagramReceived rInit
        (mkDatagram colorW 1 0 ([0] ++ List.replicate (MAX_PAYLOAD false - 1) 0)) =
      .error .keyError :=
  ⟨rfl, rfl⟩

/-! ## Claim theorems: duplicate (color, seq) arrivals (C7) -/

/-- C7 counterexample: two datagrams with the same (color, seq) = (R, 0)
but different payloads [1] then [9]; after processing both, the receiver
holds [9] — the payload of the LATER datagram — not the first-arrival [1],
so the later arrival is not dropped. -/
theorem c7_counterexample_last_arrival_wins :
    receiveRun rInit [mkDatagram colorR 2 0 [1], mkDatagram colorR 2 0 [9]] =
      .ok ({ completedR := false, completedB := false,
             packetsR := [(0, [9])], packetsB := [] }, []) ∧
    dictGet? [(0, [9])] 0 ≠ some [1] :=
  ⟨rfl, by decide⟩

/-! ## Claim theorems: append_to_chunks (C8, C10) -/

/-- `chunks[-1]` of a non-empty list is its last element. -/
theorem pyLast_eq_getLast (cs : List (List Nat)) (h : cs ≠ []) :
    pyLast cs = cs.getLast h := by
  simp [pyLast, List.getLast?_eq_getLast_of_ne_nil h]

/-- One `append_to_chunks` call preserves the three invariants: the
concatenated contents grow by exactly `data`, every chunk stays within the
cap, and every chunk but the last stays exactly full. -/
theorem append_to_chunks_step (cs : List (List Nat)) (d : List Nat) (cap : Nat)
    (hinv : ∀ ch ∈ cs, ch.length ≤ cap)
    (hfull : ∀ ch ∈ cs.dropLast, ch.length = cap)
    (hd : d.length ≤ cap) :
    (append_to_chunks cs d cap).flatten = cs.flatten ++ d ∧
    (∀ ch ∈ append_to_chunks cs d cap, ch.length ≤ cap) ∧
    (∀ ch ∈ (append_to_chunks cs d cap).dropLast, ch.length = cap) := by
  by_cases hc : cs = [] ∨ (pyLast cs).length = cap
  · have hall : ∀ ch ∈ cs, ch.length = cap := by
      intro ch hch
      by_cases hne : cs = []
      · subst hne; cases hch
      · rcases hc with hnil | hlast
        · exact absurd hnil hne
        · conv at hch => rw [← List.dropLast_append_getLast hne]
          rcases List.mem_append.mp hch with h | h
          · exact hfull ch h
          · simp only [List.mem_singleton] at h
            subst h
            rw [← pyLast_eq_getLast cs hne]
            exact hlast
    rw [append_to_chunks, if_pos hc]
    refine ⟨by simp, ?_, ?_⟩
    · intro ch hch
      rcases List.mem_append.mp hch with h | h
      · exact hinv ch h
      · simp only [List.mem_singleton] at h; subst h; exact hd
    · intro ch hch
      have hdl : (cs ++ [d]).dropLast = cs := by simp
      rw [hdl] at hch
      exact hall ch hch
  · push_neg at hc
    obtain ⟨hne, hlast⟩ := hc
    have hmem : pyLast cs ∈ cs := by
      rw [pyLast_eq_getLast cs hne]; exact List.getLast_mem hne
    have hlt : (pyLast cs).length < cap := lt_of_le_of_ne (hinv _ hmem) hlast
    have hdecomp : cs.dropLast ++ [pyLast cs] = cs := by
      rw [pyLast_eq_getLast cs hne]; exact List.dropLast_append_getLast hne
    have hflat : cs.flatten = cs.dropLast.flatten ++ pyLast cs := by
      conv_lhs => rw [← hdecomp]
      simp
    have hto : pySliceTo d ((cap : Int) - (pyLast cs).length) =
        d.take (cap - (pyLast cs).length) := by
      rw [pySliceTo, if_pos (by omega)]
      congr 1
      omega
    have hfrom : pySliceFrom d ((cap : Int) - (pyLast cs).length) =
        d.drop (cap - (pyLast cs).length) := by
      rw [pySliceFrom, if_pos (by omega)]
      congr 1
      omega
    rw [append_to_chunks, if_neg (by push_neg; exact ⟨hne, hlast⟩)]
    simp only [hto, hfrom]
    by_cases hspill : (cap : Int) - (pyLast cs).length < (d.length : Int)
    · have hks : cap - (pyLast cs).length < d.length := by omega
      rw [if_pos hspill]
      refine ⟨?_, ?_, ?_⟩
      · simp only [List.flatten_append, List.flatten_cons, List.flatten_nil,
          List.append_nil, hflat]
        simp [List.append_assoc]
      · intro ch hch
        simp only [List.append_assoc, List.mem_append, List.mem_singleton] at hch
        rcases hch with h | h | h
        · exact le_of_eq (hfull ch h)
        · subst h; simp; omega
        · subst h; simp; omega
      · intro ch hch
        have hdl : ((cs.dropLast ++ [pyLast cs ++ d.take (cap - (pyLast cs).length)]) ++
            [d.drop (cap - (pyLast cs).length)]).dropLast =
            cs.dropLast ++ [pyLast cs ++ d.take (cap - (pyLast cs).length)] := by simp
        rw [hdl] at hch
        rcases List.mem_append.mp hch with h | h
        · exact hfull ch h
        · simp only [List.mem_singleton] at h; subst h; simp; omega
    · have hks : d.length ≤ cap - (pyLast cs).length := by omega
      rw [if_neg hspill]
      have htk : d.take (cap - (pyLast cs).length) = d := List.take_of_length_le hks
      refine ⟨?_, ?_, ?_⟩
      · simp only [htk, List.flatten_append, List.flatten_cons, List.flatten_nil,
          List.append_nil, hflat]
        simp [List.append_assoc]
      · intro ch hch
        rcases List.mem_append.mp hch with h | h
        · exact le_of_eq (hfull ch h)
        · simp only [List.mem_singleton] at h; subst h; rw [htk]; simp; omega
      · intro ch hch
        have hdl : (cs.dropLast ++ [pyLast cs ++ d.take (cap - (pyLast cs).length)]).dropLast =
            cs.dropLast := by simp
        rw [hdl] at hch
        exact hfull ch hch

/-- The fold of `append_to_chunks` over any read sequence, from any
invariant-satisfying chunk list. -/
theorem chunks_foldl_spec (cap : Nat) :
    ∀ (datas : List (List Nat)) (cs : List (List Nat)),
      (∀ d ∈ datas, d.length ≤ cap) →
      (∀ ch ∈ cs, ch.length ≤ cap) →
      (∀ ch ∈ cs.dropLast, ch.length = cap) →
      (datas.foldl (fun acc d => append_to_chunks acc d cap) cs).flatten =
          cs.flatten ++ datas.flatten ∧
      (∀ ch ∈ datas.foldl (fun acc d => append_to_chunks acc d cap) cs,
        ch.length ≤ cap) ∧
      (∀ ch ∈ (datas.foldl (fun acc d => append_to_chunks acc d cap) cs).dropLast,
        ch.length = cap)
  | [], cs, _, hinv, hfull => ⟨by simp, hinv, hfull⟩
  | d :: datas, cs, hdat, hinv, hfull => by
      obtain ⟨h1, h2, h3⟩ :=
        append_to_chunks_step cs d cap hinv hfull (hdat d (by simp))
      obtain ⟨g1, g2, g3⟩ := chunks_foldl_spec cap datas (append_to_chunks cs d cap)
        (fun x hx => hdat x (by simp [hx])) h2 h3
      refine ⟨?_, g2, g3⟩
      simp only [List.foldl_cons] at g1 ⊢
      rw [g1, h1]
      simp

/-- C8: for any read sequence in which each read is at most
chunk_max_data_bytes, the chunks hold exactly the concatenated reads, no
chunk exceeds the cap, and the concrete boundary scenario (cap 10, appends
"Not full", "Hello", "!") yields exactly ["Not fullHe", "llo!"]. -/
theorem c8_append_preserves_stream (cap : Nat) (datas : List (List Nat))
    (h : ∀ d ∈ datas, d.length ≤ cap) :
    (chunksOf cap datas).flatten = datas.flatten ∧
    (∀ ch ∈ chunksOf cap datas, ch.length ≤ cap) ∧
    chunksOf 10 [[78, 111, 116, 32, 102, 117, 108, 108], [72, 101, 108, 108, 111], [33]] =
      [[78, 111, 116, 32, 102, 117, 108, 108, 72, 101], [108, 108, 111, 33]] := by
  obtain ⟨g1, g2, _⟩ := chunks_foldl_spec cap datas [] h (by simp) (by simp)
  exact ⟨by simpa using g1, g2, rfl⟩

/-- C8 witness at the concrete boundary scenario. -/
theorem c8_append_preserves_stream_witness :
    (chunksOf 10 [[78, 111, 116, 32, 102, 117, 108, 108], [72, 101, 108, 108, 111],
        [33]]).flatten =
      [[78, 111, 116, 32, 102, 117, 108, 108], [72, 101, 108, 108, 111], [33]].flatten ∧
    (∀ ch ∈ chunksOf 10 [[78, 111, 116, 32, 102, 117, 108, 108], [72, 101, 108, 108, 111],
        [33]], ch.length ≤ 10) ∧
    chunksOf 10 [[78, 111, 116, 32, 102, 117, 108, 108], [72, 101, 108, 108, 111], [33]] =
      [[78, 111, 116, 32, 102, 117, 108, 108, 72, 101], [108, 108, 111, 33]] :=
  c8_append_preserves_stream 10
    [[78, 111, 116, 32, 102, 117, 108, 108], [72, 101, 108, 108, 111], [33]] (by decide)

/-- C10: after any read sequence within the cap, every chunk except the
last is exactly full; only the last chunk can be partially filled. -/
theorem c10_only_last_chunk_partial (cap : Nat) (datas : List (List Nat))
    (h : ∀ d ∈ datas, d.length ≤ cap) :
    ∀ ch ∈ (chunksOf cap datas).dropLast, ch.length = cap :=
  (chunks_foldl_spec cap datas [] h (by simp) (by simp)).2.2

/-- C10 witness: in the boundary scenario the non-last chunk is exactly
full (length 10). -/
theorem c10_only_last_chunk_partial_witness :
    ([78, 111, 116, 32, 102, 117, 108, 108, 72, 101] : List Nat).length = 10 :=
  c10_only_last_chunk_partial 10
    [[78, 111, 116, 32, 102, 117, 108, 108], [72, 101, 108, 108, 111], [33]] (by decide)
    [78, 111, 116, 32, 102, 117, 108, 108, 72, 101] (by decide)

/-! ## Claim theorems: the send_data loop (C5, C9) -/

/-- Flipping a color never returns the same byte. -/
theorem flipColor_ne (c : Nat) : flipColor c ≠ c := by
  rw [flipColor]
  by_cases h : c = colorR
  · subst h; rw [if_pos rfl]; decide
  · rw [if_neg h]; exact fun hc => h hc.symm

/-- Flipping twice is the identity on the data colors. -/
theorem flipColor_flip (c : Nat) (h : c = colorR ∨ c = colorB) :
    flipColor (flipColor c) = c := by
  rcases h with h | h <;> subst h <;> rfl

/-- Master invariant of the `send_data` loop run: the fresh data-chunk
colors form an alternating sequence headed by the current color and stay in
{R, B}; EOF emissions use K; white fillers use W; and every resend carries
exactly the chunk and color of the most recent fresh emission (initially,
`prev_chunk`, as coupled by `lf`). -/
theorem sendRun_color_spec (r : Nat) :
    ∀ (evs : List SendEvent) (st : SendState) (lf : Option (List Nat × Nat)),
      (st.color = colorR ∨ st.color = colorB) →
      (match lf with
       | none => st.prev = none
       | some dc => st.prev = some dc.1 ∧ st.color = flipColor dc.2 ∧
           (dc.2 = colorR ∨ dc.2 = colorB)) →
      List.Chain' (fun a b => a ≠ b) (freshColors (sendDataRun r st evs)) ∧
      (∀ c ∈ (freshColors (sendDataRun r st evs)).head?, c = st.color) ∧
      (∀ c ∈ freshColors (sendDataRun r st evs), c = colorR ∨ c = colorB) ∧
      (∀ c red, Emission.eofDigest c red ∈ sendDataRun r st evs → c = colorK) ∧
      (∀ d c red, Emission.whiteFill d c red ∈ sendDataRun r st evs → c = colorW) ∧
      resendsMatchLastFresh lf (sendDataRun r st evs)
  | [], st, lf, _, _ => by
      simp [sendDataRun, freshColors, resendsMatchLastFresh]
  | .chunk d :: evs, st, lf, hcol, hlf => by
      obtain ⟨ih1, ih2, ih3, ih4, ih5, ih6⟩ :=
        sendRun_color_spec r evs
          { color := flipColor st.color, warmup := false, prev := some d }
          (some (d, st.color))
          (by rcases hcol with h | h <;> rw [h] <;> simp [flipColor, colorR, colorB])
          ⟨rfl, rfl, hcol⟩
      rw [sendDataRun, sendStep]
      refine ⟨?_, ?_, ?_, ?_, ?_, ?_⟩
      · rw [show freshColors (Emission.fresh d st.color
            (if st.warmup then MIN_WARMUP_CHUNKS + r - 1 else r) :: sendDataRun r
              { color := flipColor st.color, warmup := false, prev := some d } evs) =
            st.color :: freshColors (sendDataRun r
              { color := flipColor st.color, warmup := false, prev := some d } evs) from rfl]
        rw [List.chain'_cons']
        refine ⟨?_, ih1⟩
        intro y hy
        have := ih2 y hy
        rw [this]
        exact (flipColor_ne st.color).symm
      · intro c hc
        simp only [freshColors, List.filterMap_cons, Option.mem_def] at hc ⊢
        simp at hc
        exact hc.symm
      · intro c hc
        simp only [freshColors, List.filterMap_cons] at hc
        rcases List.mem_cons.mp hc with h | h
        · subst h; exact hcol
        · exact ih3 c h
      · intro c red hmem
        rcases List.mem_cons.mp hmem with h | h
        · cases h
        · exact ih4 c red h
      · intro d2 c red hmem
        rcases List.mem_cons.mp hmem with h | h
        · cases h
        · exact ih5 d2 c red h
      · exact ih6
  | .sentinel :: evs, st, lf, hcol, hlf => by
      rw [sendDataRun, sendStep]
      refine ⟨?_, ?_, ?_, ?_, ?_, ?_⟩
      · simp [freshColors]
      · simp [freshColors]
      · simp [freshColors]
      · intro c red hmem
        rcases List.mem_cons.mp hmem with h | h
        · cases h; rfl
        · cases h
      · intro d c red hmem
        rcases List.mem_cons.mp hmem with h | h
        · cases h
        · cases h
      · cases lf <;> simp [resendsMatchLastFresh]
  | .empty :: evs, st, lf, hcol, hlf => by
      obtain ⟨ih1, ih2, ih3, ih4, ih5, ih6⟩ := sendRun_color_spec r evs st lf hcol hlf
      rw [sendDataRun, sendStep]
      cases hp : st.prev with
      | some d =>
          refine ⟨ih1, ih2, ih3, ?_, ?_, ?_⟩
          · intro c red hmem
            rcases List.mem_cons.mp hmem with h | h
            · cases h
            · exact ih4 c red h
          · intro d2 c red hmem
            rcases List.mem_cons.mp hmem with h | h
            · cases h
            · exact ih5 d2 c red h
          · cases lf with
            | none => rw [hlf] at hp; cases hp
            | some dc =>
                obtain ⟨hp2, hc2, hdc⟩ := hlf
                rw [hp2] at hp
                cases hp
                rw [resendsMatchLastFresh]
                refine ⟨?_, ih6⟩
                rw [hc2, flipColor_flip dc.2 hdc]
      | none =>
          refine ⟨ih1, ih2, ih3, ?_, ?_, ?_⟩
          · intro c red hmem
            rcases List.mem_cons.mp hmem with h | h
            · cases h
            · exact ih4 c red h
          · intro d2 c red hmem
            rcases List.mem_cons.mp hmem with h | h
            · cases h; rfl
            · exact ih5 d2 c red h
          · rw [resendsMatchLastFresh]
            exact ih6

/-- C5: in any run of `send_data` from its initial state, the fresh
data-chunk colors all lie in {R, B} and consecutive ones differ; the EOF
chunk is always emitted with color K; white filler chunks always use color
W; and every resend re-emits the most recent fresh chunk under that chunk's
own original color (so each data chunk keeps a single color and the colors
of consecutive distinct data chunks alternate). -/
theorem c5_color_alternation (r : Nat) (evs : List SendEvent) :
    List.Chain' (fun a b => a ≠ b) (freshColors (sendDataRun r sendInitState evs)) ∧
    (∀ c ∈ freshColors (sendDataRun r sendInitState evs), c = colorR ∨ c = colorB) ∧
    (∀ c red, Emission.eofDigest c red ∈ sendDataRun r sendInitState evs → c = colorK) ∧
    (∀ d c red, Emission.whiteFill d c red ∈ sendDataRun r sendInitState evs →
      c = colorW) ∧
    resendsMatchLastFresh none (sendDataRun r sendInitState evs) := by
  obtain ⟨h1, _, h3, h4, h5, h6⟩ :=
    sendRun_color_spec r evs sendInitState none (Or.inl rfl) rfl
  exact ⟨h1, h3, h4, h5, h6⟩

/-- Master invariant for the redundancies of a `send_data` run: after
warmup every fresh chunk uses the user redundancy; while warmup is pending
the first fresh chunk (if any) uses `MIN_WARMUP_CHUNKS + r - 1` and all
later ones use `r`; the EOF chunk always uses `max(MIN_EOF_CHUNKS, r)`. -/
theorem sendRun_red_spec (r : Nat) :
    ∀ (evs : List SendEvent) (st : SendState),
      (st.warmup = false → ∀ x ∈ freshReds (sendDataRun r st evs), x = r) ∧
      (st.warmup = true → freshReds (sendDataRun r st evs) = [] ∨
        freshReds (sendDataRun r st evs) =
          (MIN_WARMUP_CHUNKS + r - 1) ::
            List.replicate ((freshReds (sendDataRun r st evs)).length - 1) r) ∧
      (∀ c red, Emission.eofDigest c red ∈ sendDataRun r st evs →
        red = max MIN_EOF_CHUNKS r)
  | [], st => by simp [sendDataRun, freshReds]
  | .chunk d :: evs, st => by
      obtain ⟨ih1, _, ih3⟩ :=
        sendRun_red_spec r evs { color := flipColor st.color, warmup := false, prev := some d }
      have hrest : ∀ x ∈ freshReds (sendDataRun r
          { color := flipColor st.color, warmup := false, prev := some d } evs), x = r :=
        ih1 rfl
      rw [sendDataRun, sendStep]
      refine ⟨?_, ?_, ?_⟩
      · intro hw
        rw [hw]
        simp only [Bool.false_eq_true, if_false, freshReds, List.filterMap_cons]
        intro x hx
        rcases List.mem_cons.mp hx with h | h
        · exact h
        · exact hrest x h
      · intro hw
        rw [hw]
        right
        simp only [if_pos rfl, freshReds, List.filterMap_cons]
        have hrep : List.filterMap
            (fun e => match e with
              | Emission.fresh _ _ red => some red
              | _ => none)
            (sendDataRun r { color := flipColor st.color, warmup := false, prev := some d }
              evs) =
            List.replicate (List.filterMap
              (fun e => match e with
                | Emission.fresh _ _ red => some red
                | _ => none)
              (sendDataRun r { color := flipColor st.color, warmup := false, prev := some d }
                evs)).length r := by
          apply List.eq_replicate_of_mem
          intro x hx
          exact hrest x hx
        rw [List.length_cons]
        rw [Nat.add_sub_cancel]
        exact congrArg _ hrep
      · intro c red hmem
        rcases List.mem_cons.mp hmem with h | h
        · cases h
        · exact ih3 c red h
  | .sentinel :: evs, st => by
      rw [sendDataRun, sendStep]
      refine ⟨?_, ?_, ?_⟩
      · intro _; simp [freshReds]
      · intro _; left; simp [freshReds]
      · intro c red hmem
        rcases List.mem_cons.mp hmem with h | h
        · cases h; rfl
        · cases h
  | .empty :: evs, st => by
      obtain ⟨ih1, ih2, ih3⟩ := sendRun_red_spec r evs st
      rw [sendDataRun, sendStep]
      cases hp : st.prev with
      | some d =>
          refine ⟨?_, ?_, ?_⟩
          · intro hw
            simp only [freshReds, List.filterMap_cons]
            exact ih1 hw
          · intro hw
            simp only [freshReds, List.filterMap_cons]
            exact ih2 hw
          · intro c red hmem
            rcases List.mem_cons.mp hmem with h | h
            · cases h
            · exact ih3 c red h
      | none =>
          refine ⟨?_, ?_, ?_⟩
          · intro hw
            simp only [freshReds, List.filterMap_cons]
            exact ih1 hw
          · intro hw
            simp only [freshReds, List.filterMap_cons]
            exact ih2 hw
          · intro c red hmem
            rcases List.mem_cons.mp hmem with h | h
            · cases h
            · exact ih3 c red h

/-- C9: in any run of `send_data` from its initial state with user
redundancy r, the first fresh data chunk is emitted with redundancy
`MIN_WARMUP_CHUNKS + r - 1`, every later fresh data chunk with redundancy
r, and the EOF digest chunk with redundancy `max(MIN_EOF_CHUNKS, r)`. -/
theorem c9_redundancy_schedule (r : Nat) (evs : List SendEvent) :
    (freshReds (sendDataRun r sendInitState evs) = [] ∨
      freshReds (sendDataRun r sendInitState evs) =
        (MIN_WARMUP_CHUNKS + r - 1) ::
          List.replicate ((freshReds (sendDataRun r sendInitState evs)).length - 1) r) ∧
    (∀ c red, Emission.eofDigest c red ∈ sendDataRun r sendInitState evs →
      red = max MIN_EOF_CHUNKS r) := by
  obtain ⟨_, h2, h3⟩ := sendRun_red_spec r evs sendInitState
  exact ⟨h2 rfl, h3⟩

/-! ## Receiver lemmas: dict operations -/

/-- The keys of a dict, in insertion order. -/
def dictKeys (d : PyDict) : List Nat := d.map fun kv => kv.1

/-- Membership test agrees with key-list membership. -/
theorem dictMem_iff_mem_keys (d : PyDict) (k : Nat) :
    dictMem d k = true ↔ k ∈ dictKeys d := by
  induction d with
  | nil => simp [dictMem, dictKeys]
  | cons kv d ih =>
      simp only [dictMem, List.any_cons, dictKeys, List.map_cons, List.mem_cons,
        Bool.or_eq_true, decide_eq_true_eq] at *
      constructor
      · rintro (h | h)
        · exact Or.inl h.symm
        · exact Or.inr (ih.mp h)
      · rintro (h | h)
        · exact Or.inl h.symm
        · exact Or.inr (ih.mpr h)

/-- Inserting an absent key appends the pair. -/
theorem dictInsert_not_mem (d : PyDict) (k : Nat) (v : List Nat)
    (h : dictMem d k = false) : dictInsert d k v = d ++ [(k, v)] := by
  rw [dictInsert, if_neg]
  rw [h]
  exact Bool.false_ne_true

/-- Inserting a present key whose stored value already equals the new value
leaves the dict unchanged. -/
theorem dictInsert_mem_same (d : PyDict) (k : Nat) (v : List Nat)
    (hmem : dictMem d k = true) (hval : ∀ kv ∈ d, kv.1 = k → kv.2 = v) :
    dictInsert d k v = d := by
  rw [dictInsert, if_pos hmem]
  have : ∀ kv ∈ d, (if kv.1 = k then (k, v) else kv) = kv := by
    intro kv hkv
    by_cases hk : kv.1 = k
    · rw [if_pos hk]
      have hv := hval kv hkv hk
      cases kv
      simp only at hk hv
      rw [hk, hv]
    · rw [if_neg hk]
  rw [List.map_congr_left this]
  exact List.map_id d

/-- Looking up a key after inserting it returns the inserted value. -/
theorem dictGet?_insert_self (d : PyDict) (k : Nat) (v : List Nat) :
    dictGet? (dictInsert d k v) k = some v := by
  by_cases hmem : dictMem d k = true
  · rw [dictInsert, if_pos hmem]
    induction d with
    | nil => simp [dictMem] at hmem
    | cons kv d ih =>
        by_cases hk : kv.1 = k
        · simp [dictGet?, List.find?_cons, hk]
        · simp only [List.map_cons, if_neg hk]
          rw [dictGet?, List.find?_cons_of_neg _ (by simpa using hk)]
          have hmem2 : dictMem d k = true := by
            simp only [dictMem, List.any_cons, Bool.or_eq_true, decide_eq_true_eq] at hmem
            rcases hmem with h | h
            · exact absurd h hk
            · exact h
          exact ih hmem2
  · rw [dictInsert_not_mem d k v (by simpa using hmem)]
    induction d with
    | nil => simp [dictGet?, List.find?_cons]
    | cons kv d ih =>
        have hk : ¬kv.1 = k := by
          intro h
          apply hmem
          simp [dictMem, List.any_cons, h]
        rw [List.cons_append, dictGet?, List.find?_cons_of_neg _ (by simpa using hk)]
        apply ih
        intro h
        apply hmem
        simp only [dictMem, List.any_cons, Bool.or_eq_true, decide_eq_true_eq]
        right
        simpa [dictMem] using h

/-- Lookup of a present key in a dict whose values are pointwise given by
`p` returns `p` of the key. -/
theorem dictGet?_of_vals (d : PyDict) (k : Nat) (p : Nat → List Nat)
    (hmem : k ∈ dictKeys d) (hval : ∀ kv ∈ d, kv.2 = p kv.1) :
    dictGet? d k = some (p k) := by
  induction d with
  | nil => cases hmem
  | cons kv d ih =>
      by_cases hk : kv.1 = k
      · rw [dictGet?, List.find?_cons_of_pos _ (by simpa using hk)]
        have hv := hval kv (by simp)
        show some kv.2 = some (p k)
        rw [hv, hk]
      · rw [dictGet?, List.find?_cons_of_neg _ (by simpa using hk)]
        have hmem2 : k ∈ dictKeys d := by
          simp only [dictKeys, List.map_cons, List.mem_cons] at hmem
          rcases hmem with h | h
          · exact absurd h.symm hk
          · exact h
        exact ih hmem2 fun kv2 h2 => hval kv2 (by simp [h2])

/-- A nodup key list bounded by n and of length n covers all of [0, n). -/
theorem dictKeys_cover (ks : List Nat) (n : Nat) (hnd : ks.Nodup)
    (hlt : ∀ k ∈ ks, k < n) (hlen : ks.length = n) : ∀ s, s < n → s ∈ ks := by
  intro s hs
  have hsub : ks.toFinset ⊆ Finset.range n := by
    intro x hx
    rw [Finset.mem_range]
    exact hlt x (List.mem_toFinset.mp hx)
  have hcard : ks.toFinset.card = n := by
    rw [List.toFinset_card_of_nodup hnd, hlen]
  have heq : ks.toFinset = Finset.range n := by
    apply Finset.eq_of_subset_of_card_le hsub
    rw [hcard, Finset.card_range]
  have : s ∈ ks.toFinset := by
    rw [heq, Finset.mem_range]
    exact hs
  exact List.mem_toFinset.mp this

/-- Mapping a sequence of elementwise-successful `Except` computations
succeeds with the mapped results. -/
theorem mapM_ok_of_forall {E : Type} (l : List Nat) (f : Nat → Except E (List Nat))
    (g : Nat → List Nat) (h : ∀ s ∈ l, f s = .ok (g s)) :
    l.mapM f = .ok (l.map g) := by
  induction l with
  | nil => rw [List.mapM_nil]; rfl
  | cons a l ih =>
      rw [List.mapM_cons, h a (by simp), List.map_cons]
      have := ih fun s hs => h s (by simp [hs])
      rw [this]
      rfl

/-- A full dict (every seq below n present, values by p, length n) emits
the payloads in seq order. -/
theorem emitChunk_ok (m : PyDict) (n : Nat) (p : Nat → List Nat)
    (h : ∀ s, s < n → dictGet? m s = some (p s)) :
    emitChunk m n = .ok ((List.range n).map p) := by
  rw [emitChunk]
  apply mapM_ok_of_forall
  intro s hs
  rw [h s (List.mem_range.mp hs)]

/-! ## Receiver lemmas: one datagram -/

/-- Bind on a successful `Except` computes the continuation. -/
theorem exceptBind_ok {α β : Type} (a : α) (f : α → Except PyError β) :
    (Except.ok a >>= f) = f a := rfl

/-- Unpacking the header the receiver slices off a well-formed datagram
recovers the encoded fields. -/
theorem unpack_mkDatagram (c n s : Nat) (pl : List Nat) (hn : n < 65536)
    (hs : s < 65536) :
    PACKET_HEADER_unpack ((mkDatagram c n s pl).take PACKET_HEADER_size) =
      .ok (c, n, s) := by
  have h0 : (mkDatagram c n s pl).take PACKET_HEADER_size =
      [c, n % 256, n / 256 % 256, s % 256, s / 256 % 256] := rfl
  rw [h0]
  show Except.ok (c, n % 256 + 256 * (n / 256 % 256), s % 256 + 256 * (s / 256 % 256)) =
    Except.ok (c, n, s)
  have h1 : n % 256 + 256 * (n / 256 % 256) = n := by omega
  have h2 : s % 256 + 256 * (s / 256 % 256) = s := by omega
  rw [h1, h2]

/-- A data-colored datagram for an in-progress color records the payload
under its seq; the chunk completes exactly when the dict reaches n_packets
entries, in which case the payloads are emitted and the color flags flip. -/
theorem recv_inProgress (st : RState) (c n s : Nat) (pl : List Nat)
    (hc : c = colorR ∨ c = colorB) (hn : n < 65536) (hs : s < 65536)
    (hcomp : completedGet st c = .ok false) :
    datagramReceived st (mkDatagram c n s pl) =
      (if (dictInsert (packetsGet st c) s pl).length = n then
        (emitChunk (dictInsert (packetsGet st c) s pl) n).bind fun outs =>
          .ok (setCompleted (setCompleted (setPackets st c []) c true)
            (flipColor c) false, outs.map some)
      else .ok (setPackets st c (dictInsert (packetsGet st c) s pl), [])) := by
  obtain ⟨cR, cB, pR, pB⟩ := st
  have hu := unpack_mkDatagram c n s pl hn hs
  rcases hc with hc | hc <;> subst hc
  · have hcR : cR = false := by
      rw [completedGet, if_pos rfl] at hcomp
      exact (Except.ok.injEq _ _).mp hcomp
    subst hcR
    rw [datagramReceived, hu, exceptBind_ok]
    by_cases h : (dictInsert pR s pl).length = n
    · simp [drop_mkDatagram, packetsGet, completedGet, colorR, colorB, colorK,
        colorW, flipColor, setPackets, setCompleted, exceptBind_ok, h]
      cases hemit : emitChunk (dictInsert pR s pl) n <;> rfl
    · simp [drop_mkDatagram, packetsGet, completedGet, colorR, colorB, colorK,
        colorW, flipColor, setPackets, setCompleted, exceptBind_ok, h]
      rfl
  · have hcB : cB = false := by
      rw [completedGet, if_neg (by decide), if_pos rfl] at hcomp
      exact (Except.ok.injEq _ _).mp hcomp
    subst hcB
    rw [datagramReceived, hu, exceptBind_ok]
    by_cases h : (dictInsert pB s pl).length = n
    · simp [drop_mkDatagram, packetsGet, completedGet, colorR, colorB, colorK,
        colorW, flipColor, setPackets, setCompleted, exceptBind_ok, h]
      cases hemit : emitChunk (dictInsert pB s pl) n <;> rfl
    · simp [drop_mkDatagram, packetsGet, completedGet, colorR, colorB, colorK,
        colorW, flipColor, setPackets, setCompleted, exceptBind_ok, h]
      rfl

/-- A data-colored datagram for an already-completed color is dropped:
state unchanged, nothing queued. -/
theorem recv_completed (st : RState) (c n s : Nat) (pl : List Nat)
    (hc : c = colorR ∨ c = colorB) (hn : n < 65536) (hs : s < 65536)
    (hcomp : completedGet st c = .ok true) :
    datagramReceived st (mkDatagram c n s pl) = .ok (st, []) := by
  obtain ⟨cR, cB, pR, pB⟩ := st
  have hu := unpack_mkDatagram c n s pl hn hs
  rcases hc with hc | hc <;> subst hc
  · have hcR : cR = true := by
      rw [completedGet, if_pos rfl] at hcomp
      exact (Except.ok.injEq _ _).mp hcomp
    subst hcR
    rw [datagramReceived, hu, exceptBind_ok]
    simp [completedGet, colorR, colorK]
    rfl
  · have hcB : cB = true := by
      rw [completedGet, if_neg (by decide), if_pos rfl] at hcomp
      exact (Except.ok.injEq _ _).mp hcomp
    subst hcB
    rw [datagramReceived, hu, exceptBind_ok]
    simp [completedGet, colorR, colorB, colorK]
    rfl

/-- C7 (amended): for an in-progress chunk, the payload the receiver holds
for a seq is the one from the MOST RECENT datagram with that (color, seq):
a later datagram with the same (color, seq) overwrites the stored payload
(when it does not complete the chunk, the state change is exactly that
overwrite and nothing is queued). -/
theorem c7_later_arrival_overwrites (st : RState) (c n s : Nat) (pl : List Nat)
    (hc : c = colorR ∨ c = colorB) (hn : n < 65536) (hs : s < 65536)
    (hprog : completedGet st c = .ok false)
    (hnofin : (dictInsert (packetsGet st c) s pl).length ≠ n) :
    datagramReceived st (mkDatagram c n s pl) =
      .ok (setPackets st c (dictInsert (packetsGet st c) s pl), []) ∧
    dictGet? (dictInsert (packetsGet st c) s pl) s = some pl := by
  rw [recv_inProgress st c n s pl hc hn hs hprog, if_neg hnofin]
  exact ⟨rfl, dictGet?_insert_self _ _ _⟩

/-- C7 witness: a red chunk in progress holds [1] at seq 0; a second (R, 0)
datagram with payload [9] overwrites it. -/
theorem c7_later_arrival_overwrites_witness :
    datagramReceived ⟨false, false, [(0, [1])], []⟩ (mkDatagram colorR 2 0 [9]) =
      .ok (setPackets ⟨false, false, [(0, [1])], []⟩ colorR
        (dictInsert (packetsGet ⟨false, false, [(0, [1])], []⟩ colorR) 0 [9]), []) ∧
    dictGet? (dictInsert (packetsGet ⟨false, false, [(0, [1])], []⟩ colorR) 0 [9]) 0 =
      some [9] :=
  c7_later_arrival_overwrites ⟨false, false, [(0, [1])], []⟩ colorR 2 0 [9]
    (Or.inl rfl) (by decide) (by decide) rfl (by decide)

/-! ## Claim theorems: duplicate suppression and chunk completion (C4) -/

/-- A receiver state reassembling an in-progress chunk of color c with
slot dict m (the opposite color idle). -/
def stA (c : Nat) (m : PyDict) : RState :=
  if c = colorR then ⟨false, false, m, []⟩ else ⟨false, false, [], m⟩

/-- The receiver state right after a chunk of color c completed:
completed[c] set, slots emptied, completed[opposite] cleared. -/
def stF (c : Nat) : RState :=
  if c = colorR then ⟨true, false, [], []⟩ else ⟨false, true, [], []⟩

/-- With no slots filled, the in-progress state is the initial state. -/
theorem stA_nil (c : Nat) : stA c [] = rInit := by
  rw [stA, rInit]
  by_cases h : c = colorR
  · rw [if_pos h]
  · rw [if_neg h]

/-- The slots of the in-progress state. -/
theorem packetsGet_stA (c : Nat) (m : PyDict) (hc : c = colorR ∨ c = colorB) :
    packetsGet (stA c m) c = m := by
  rcases hc with h | h <;> subst h <;> rfl

/-- The in-progress color is not completed. -/
theorem completedGet_stA (c : Nat) (m : PyDict) (hc : c = colorR ∨ c = colorB) :
    completedGet (stA c m) c = .ok false := by
  rcases hc with h | h <;> subst h <;> rfl

/-- Replacing the slots of the in-progress state. -/
theorem setPackets_stA (c : Nat) (m m2 : PyDict) (hc : c = colorR ∨ c = colorB) :
    setPackets (stA c m) c m2 = stA c m2 := by
  rcases hc with h | h <;> subst h <;> rfl

/-- The completion step of `datagram_received` turns an in-progress state
into the completed state. -/
theorem completionState_stA (c : Nat) (m : PyDict) (hc : c = colorR ∨ c = colorB) :
    setCompleted (setCompleted (setPackets (stA c m) c []) c true) (flipColor c) false =
      stF c := by
  rcases hc with h | h <;> subst h <;> rfl

/-- The completed color reads as completed. -/
theorem completedGet_stF (c : Nat) (hc : c = colorR ∨ c = colorB) :
    completedGet (stF c) c = .ok true := by
  rcases hc with h | h <;> subst h <;> rfl

/-- Composing one received datagram with the rest of a run. -/
theorem receiveRun_cons (st st1 st2 : RState) (d : List Nat) (ds : List (List Nat))
    (out1 out2 : List (Option (List Nat)))
    (h1 : datagramReceived st d = .ok (st1, out1))
    (h2 : receiveRun st1 ds = .ok (st2, out2)) :
    receiveRun st (d :: ds) = .ok (st2, out1 ++ out2) := by
  rw [receiveRun, h1]
  simp only [exceptBind_ok]
  simp only [h2, exceptBind_ok]
  rfl

/-- Once the chunk of color c has completed, further datagrams of that
chunk are all dropped without output or state change. -/
theorem recvRun_afterComplete (c n : Nat) (p : Nat → List Nat)
    (hc : c = colorR ∨ c = colorB) (hn2 : n < 65536) :
    ∀ sched : List Nat, (∀ s ∈ sched, s < n) →
      receiveRun (stF c) (sched.map fun s => mkDatagram c n s (p s)) = .ok (stF c, [])
  | [], _ => rfl
  | s :: sched, hsched => by
      have hs : s < 65536 := lt_trans (hsched s (by simp)) hn2
      have hstep := recv_completed (stF c) c n s (p s) hc hn2 hs (completedGet_stF c hc)
      have hrest := recvRun_afterComplete c n p hc hn2 sched
        (fun x hx => hsched x (by simp [hx]))
      rw [List.map_cons, receiveRun_cons _ _ _ _ _ _ _ hstep hrest]
      rfl

/-- Main induction for C4: from an in-progress state whose slots are a
nodup sub-dict of the chunk (fewer than n slots filled), any datagram
sequence that supplies every missing seq at least once drives the receiver
to the completed state with the payloads emitted once, in seq order. -/
theorem recvRun_inProgress (c n : Nat) (p : Nat → List Nat)
    (hc : c = colorR ∨ c = colorB) (hn2 : n < 65536) :
    ∀ (sched : List Nat) (m : PyDict),
      (∀ s ∈ sched, s < n) →
      (dictKeys m).Nodup →
      (∀ kv ∈ m, kv.1 < n ∧ kv.2 = p kv.1) →
      m.length < n →
      (∀ s, s < n → dictMem m s = false → s ∈ sched) →
      receiveRun (stA c m) (sched.map fun s => mkDatagram c n s (p s)) =
        .ok (stF c, (List.range n).map fun s => some (p s))
  | [], m, _, hnd, hvals, hlen, hcov => by
      exfalso
      have hsub : List.range n ⊆ dictKeys m := by
        intro s hsmem
        have hs := List.mem_range.mp hsmem
        by_cases hm : dictMem m s = false
        · cases hcov s hs hm
        · exact (dictMem_iff_mem_keys m s).mp (by revert hm; cases dictMem m s <;> simp)
      have hle : n ≤ (dictKeys m).length := by
        have := (List.subperm_of_subset (List.nodup_range n) hsub).length_le
        simpa using this
      rw [dictKeys, List.length_map] at hle
      omega
  | s :: sched, m, hsched, hnd, hvals, hlen, hcov => by
      have hsn : s < n := hsched s (by simp)
      have hs : s < 65536 := lt_trans hsn hn2
      have hstep := recv_inProgress (stA c m) c n s (p s) hc hn2 hs
        (completedGet_stA c m hc)
      rw [packetsGet_stA c m hc] at hstep
      by_cases hmem : dictMem m s = true
      · have hins : dictInsert m s (p s) = m :=
          dictInsert_mem_same m s (p s) hmem
            (fun kv hkv hk => by rw [(hvals kv hkv).2, hk])
        rw [hins] at hstep
        rw [if_neg (by omega)] at hstep
        rw [setPackets_stA c m m hc] at hstep
        have hrest := recvRun_inProgress c n p hc hn2 sched m
          (fun x hx => hsched x (by simp [hx])) hnd hvals hlen
          (fun x hx hmx => by
            have := hcov x hx hmx
            rcases List.mem_cons.mp this with h | h
            · subst h; rw [hmem] at hmx; cases hmx
            · exact h)
        rw [List.map_cons, receiveRun_cons _ _ _ _ _ _ _ hstep hrest]
        rfl
      · have hmemf : dictMem m s = false := by revert hmem; cases dictMem m s <;> simp
        have hins : dictInsert m s (p s) = m ++ [(s, p s)] :=
          dictInsert_not_mem m s (p s) hmemf
        have hkeys : dictKeys (m ++ [(s, p s)]) = dictKeys m ++ [s] := by
          simp [dictKeys]
        have hsnotin : s ∉ dictKeys m := by
          intro hin
          rw [(dictMem_iff_mem_keys m s).mpr hin] at hmemf
          cases hmemf
        have hnd2 : (dictKeys (m ++ [(s, p s)])).Nodup := by
          rw [hkeys]
          rw [List.nodup_append]
          exact ⟨hnd, List.nodup_singleton s, by simpa using hsnotin⟩
        have hvals2 : ∀ kv ∈ m ++ [(s, p s)], kv.1 < n ∧ kv.2 = p kv.1 := by
          intro kv hkv
          rcases List.mem_append.mp hkv with h | h
          · exact hvals kv h
          · simp only [List.mem_singleton] at h
            subst h
            exact ⟨hsn, rfl⟩
        have hlen2 : (m ++ [(s, p s)]).length = m.length + 1 := by simp
        rw [hins] at hstep
        by_cases hfin : (m ++ [(s, p s)]).length = n
        · rw [if_pos hfin] at hstep
          have hget : ∀ x, x < n → dictGet? (m ++ [(s, p s)]) x = some (p x) := by
            intro x hx
            apply dictGet?_of_vals (m ++ [(s, p s)]) x p
            · apply dictKeys_cover (dictKeys (m ++ [(s, p s)])) n hnd2
              · intro k hk
                rw [dictKeys] at hk
                obtain ⟨kv, hkv, hkeq⟩ := List.mem_map.mp hk
                rw [← hkeq]
                exact (hvals2 kv hkv).1
              · rw [dictKeys, List.length_map]
                exact hfin
              · exact hx
            · intro kv hkv
              exact (hvals2 kv hkv).2
          rw [emitChunk_ok (m ++ [(s, p s)]) n p hget] at hstep
          rw [show ((Except.ok ((List.range n).map p) : Except PyError (List (List Nat))).bind
              fun outs => Except.ok (setCompleted (setCompleted (setPackets (stA c m) c [])
                c true) (flipColor c) false, outs.map some)) =
              Except.ok (setCompleted (setCompleted (setPackets (stA c m) c []) c true)
                (flipColor c) false, ((List.range n).map p).map some) from rfl] at hstep
          rw [completionState_stA c m hc] at hstep
          have hrest := recvRun_afterComplete c n p hc hn2 sched
            (fun x hx => hsched x (by simp [hx]))
          rw [List.map_cons, receiveRun_cons _ _ _ _ _ _ _ hstep hrest]
          rw [List.append_nil, List.map_map]
          rfl
        · rw [if_neg hfin] at hstep
          rw [setPackets_stA c m (m ++ [(s, p s)]) hc] at hstep
          have hrest := recvRun_inProgress c n p hc hn2 sched (m ++ [(s, p s)])
            (fun x hx => hsched x (by simp [hx])) hnd2 hvals2 (by omega)
            (fun x hx hmx => by
              have hxnotin : x ∉ dictKeys (m ++ [(s, p s)]) := by
                intro hin
                rw [(dictMem_iff_mem_keys _ x).mpr hin] at hmx
                cases hmx
              rw [hkeys] at hxnotin
              have hxne : x ≠ s := by
                intro h
                exact hxnotin (by simp [h])
              have hxm : dictMem m x = false := by
                by_cases hmm : dictMem m x = true
                · exact absurd (List.mem_append_left _ ((dictMem_iff_mem_keys m x).mp hmm))
                    hxnotin
                · revert hmm; cases dictMem m x <;> simp
              have := hcov x hx hxm
              rcases List.mem_cons.mp this with h | h
              · exact absurd h hxne
              · exact h)
          rw [List.map_cons, receiveRun_cons _ _ _ _ _ _ _ hstep hrest]
          rfl

/-- C4: if the receiver, starting from its initial state, is delivered N ≥ 1
copies of every (color, seq) packet of a data chunk (color c ∈ {R, B},
n_packets = n ≥ 1, payload p(seq) for each seq < n) in any arrival order,
then it queues that chunk's payloads exactly once, in increasing seq order
0..n_packets, and ends in the state with completed[c] = true, slots[c]
empty, and completed[opposite] = false (`stF c`). -/
theorem c4_duplicate_suppression (c n N : Nat) (p : Nat → List Nat) (sched : List Nat)
    (hc : c = colorR ∨ c = colorB) (hn1 : 1 ≤ n) (hn2 : n < 65536) (hN : 1 ≤ N)
    (hmem : ∀ s ∈ sched, s < n)
    (hcount : ∀ s, s < n → sched.count s = N) :
    receiveRun rInit (sched.map fun s => mkDatagram c n s (p s)) =
      .ok (stF c, (List.range n).map fun s => some (p s)) ∧
    completedGet (stF c) c = .ok true ∧
    packetsGet (stF c) c = [] ∧
    completedGet (stF c) (flipColor c) = .ok false := by
  refine ⟨?_, completedGet_stF c hc, ?_, ?_⟩
  · rw [← stA_nil c]
    apply recvRun_inProgress c n p hc hn2 sched [] hmem
    · simp [dictKeys]
    · simp
    · simp only [List.length_nil]
      omega
    · intro s hs _
      apply List.count_pos_iff.mp
      rw [hcount s hs]
      omega
  · rcases hc with h | h <;> subst h <;> rfl
  · rcases hc with h | h <;> subst h <;> rfl

/-- C4 witness: a red chunk with two packets, payloads [10] and [11],
delivered twice each in the interleaved order 1, 0, 0, 1. -/
theorem c4_duplicate_suppression_witness :
    receiveRun rInit ([1, 0, 0, 1].map fun s => mkDatagram colorR 2 s
        ((fun x => [x + 10]) s)) =
      .ok (stF colorR, (List.range 2).map fun s => some ((fun x => [x + 10]) s)) ∧
    completedGet (stF colorR) colorR = .ok true ∧
    packetsGet (stF colorR) colorR = [] ∧
    completedGet (stF colorR) (flipColor colorR) = .ok false :=
  c4_duplicate_suppression colorR 2 2 (fun x => [x + 10]) [1, 0, 0, 1]
    (Or.inl rfl) (by decide) (by decide) (by decide) (by decide) (by decide)
